import Mathlib

/-
Verification development for the Huffman compression tool in src/cm.py.

The Python source is shallowly embedded as executable Lean definitions:

* a symbol is a `Char`, a bit-string (Python string of '0'/'1') is a
  `List Bool` with `false` standing for '0' and `true` for '1';
* a Python dict is an insertion-ordered association list (`dictGet` /
  `dictSet` mirror dict reads and writes, including the append-at-end
  behaviour for new keys and the in-place update for existing keys);
* the CPython `heapq` functions (`heapify`, `heappush`, `heappop`) are
  embedded from their documented pure-Python reference implementation,
  including the exact tie-breaking behaviour on equal frequencies, since
  the produced codes depend on it;
* fallible code returns `Except PyErr`: `heap[0]` on an empty heap raises
  IndexError, `codebook[char]` on a missing key raises KeyError;
* the `pickle` library is modelled by a deterministic, self-delimiting
  serializer of the codebook (see `pickleDumps`);
* file I/O is the out-of-scope glue: `compress_file` maps the input text
  to the container byte list, `decompress_file` maps the container byte
  list back to a text.
-/

namespace CM

/-- Errors of the embedded program. `indexError` and `keyError` model the
Python exceptions the source can raise (`heap[0]` on an empty list at
src/cm.py:43, `codebook[char]` on a missing key at src/cm.py:58);
`unpicklingError` models a failed `pickle.load`. `emptyInput` and
`corruptStream` are failure names used by the specification's error
taxonomy; they are listed here so that statements about them can be
formalised, and the embedded code never produces them. -/
inductive PyErr where
  | indexError
  | keyError
  | unpicklingError
  | emptyInput
  | corruptStream
  deriving DecidableEq, Repr

/-- Lookup in an insertion-ordered association list (Python dict read). -/
def dictGet {κ β : Type} [DecidableEq κ] : List (κ × β) → κ → Option β
  | [], _ => none
  | (k, v) :: tl, c => if k = c then some v else dictGet tl c

/-- Insertion-ordered association-list update (Python dict write): an
existing key is updated in place, a new key is appended at the end. -/
def dictSet {κ β : Type} [DecidableEq κ] : List (κ × β) → κ → β → List (κ × β)
  | [], c, v => [(c, v)]
  | (k, w) :: tl, c, v => if k = c then (c, v) :: tl else (k, w) :: dictSet tl c v

/-- Embeds `calculate_frequencies` (src/cm.py:25-29): the
`defaultdict(int)` counting loop over the characters of the text.  The
file-reading part (src/cm.py:17-23) is I/O glue outside the core. -/
def calculate_frequencies (text : List Char) : List (Char × Nat) :=
  text.foldl (fun freqs c => dictSet freqs c ((dictGet freqs c).getD 0 + 1)) []

/-- Embeds the `Node` class (src/cm.py:7-12).  The program only ever
creates nodes holding a character and no children (leaves, src/cm.py:32)
or nodes with `char = None` and exactly two children (merged internal
nodes, src/cm.py:38-40), which this inductive type captures. -/
inductive Node where
  | leaf (char : Char) (freq : Nat)
  | internal (freq : Nat) (left right : Node)
  deriving DecidableEq, Repr

def Node.freq : Node → Nat
  | .leaf _ f => f
  | .internal f _ _ => f

/-- Embeds `Node.__lt__` (src/cm.py:14-15): nodes compare by frequency
only. -/
def Node.lt (a b : Node) : Bool := decide (a.freq < b.freq)

/-! ### The CPython heapq reference implementation

Embedded from the pure-Python implementation in CPython's `Lib/heapq.py`
(the C accelerator is semantically identical).  The loops are written with
an explicit fuel argument; the fuel-exhausted branch returns the same
value as the loop's normal exit, and the callers pass fuel that provably
never runs out, so the embedding computes exactly what the Python does. -/

namespace Heapq

variable {α : Type}

/-- Loop body of `_siftdown(heap, startpos, pos)` with `newitem` already
read from `heap[pos]`: bubble `newitem` toward the root while it is
smaller than its parent, then place it. -/
def siftdownLoop (lt : α → α → Bool) : Nat → List α → Nat → Nat → α → List α
  | 0, heap, _, pos, newitem => heap.set pos newitem
  | fuel + 1, heap, startpos, pos, newitem =>
    if startpos < pos then
      match heap[(pos - 1) / 2]? with
      | none => heap.set pos newitem
      | some parent =>
        if lt newitem parent then
          siftdownLoop lt fuel (heap.set pos parent) startpos ((pos - 1) / 2) newitem
        else heap.set pos newitem
    else heap.set pos newitem

/-- The child selected by `_siftup`: the right child `childpos + 1` is
preferred unless the left child compares strictly smaller (`not
heap[childpos] < heap[rightpos]` in the source). -/
def pickChild (lt : α → α → Bool) (heap : List α) (endpos childpos : Nat) (newitem : α) : Nat :=
  if childpos + 1 < endpos ∧
      lt (heap.getD childpos newitem) (heap.getD (childpos + 1) newitem) = false
  then childpos + 1 else childpos

/-- Loop body of `_siftup(heap, pos)` with `newitem = heap[pos]`: move
the smaller child up until a leaf position is reached, place `newitem`
there, and report that final position (the source then restores the heap
invariant by `_siftdown`). -/
def siftupLoop (lt : α → α → Bool) : Nat → List α → Nat → Nat → α → List α × Nat
  | 0, heap, _, pos, newitem => (heap.set pos newitem, pos)
  | fuel + 1, heap, endpos, pos, newitem =>
    if 2 * pos + 1 < endpos then
      siftupLoop lt fuel
        (heap.set pos (heap.getD (pickChild lt heap endpos (2 * pos + 1) newitem) newitem))
        endpos (pickChild lt heap endpos (2 * pos + 1) newitem) newitem
    else (heap.set pos newitem, pos)

/-- Embeds `_siftup(heap, pos)` (CPython `Lib/heapq.py`): run the upward
loop, then restore the invariant by `_siftdown` from the final position. -/
def siftup (lt : α → α → Bool) (heap : List α) (pos : Nat) : List α :=
  match heap[pos]? with
  | none => heap
  | some newitem =>
    siftdownLoop lt (siftupLoop lt heap.length heap heap.length pos newitem).2
      (siftupLoop lt heap.length heap heap.length pos newitem).1 pos
      (siftupLoop lt heap.length heap heap.length pos newitem).2 newitem

/-- Embeds `heappush(heap, item)`: append, then sift down from the new
last position `len(heap) - 1` toward the root. -/
def heappush (lt : α → α → Bool) (heap : List α) (item : α) : List α :=
  siftdownLoop lt heap.length (heap ++ [item]) 0 heap.length item

/-- Embeds `heappop(heap)`: pop the last element; if the heap is still
non-empty, take its head as the result, move the last element to the
head and sift it up.  An empty heap raises IndexError, modelled as
`none`. -/
def heappop (lt : α → α → Bool) (heap : List α) : Option (α × List α) :=
  match heap.getLast? with
  | none => none
  | some lastelt =>
    match heap.dropLast with
    | [] => some (lastelt, [])
    | r0 :: rtl => some (r0, siftup lt (lastelt :: rtl) 0)

/-- Countdown driver of `heapify`: apply `_siftup` at positions
`k-1, ..., 0`. -/
def heapifyAux (lt : α → α → Bool) : Nat → List α → List α
  | 0, heap => heap
  | k + 1, heap => heapifyAux lt k (siftup lt heap k)

/-- Embeds `heapify(x)`: `for i in reversed(range(n//2)): _siftup(x, i)`. -/
def heapify (lt : α → α → Bool) (heap : List α) : List α :=
  heapifyAux lt (heap.length / 2) heap

end Heapq

/-- Merge loop of `build_huffman_tree` (src/cm.py:35-41): while more than
one node remains, pop the two smallest, merge them (first popped becomes
the left child, second popped the right child) and push the merged node.
The callers pass `fuel = heap.length`, which never runs out. -/
def mergeLoop : Nat → List Node → List Node
  | 0, heap => heap
  | fuel + 1, heap =>
    if 1 < heap.length then
      match Heapq.heappop Node.lt heap with
      | none => heap
      | some (left, heap1) =>
        match Heapq.heappop Node.lt heap1 with
        | none => heap1
        | some (right, heap2) =>
          mergeLoop fuel
            (Heapq.heappush Node.lt heap2 (Node.internal (left.freq + right.freq) left right))
    else heap

/-- Embeds `build_huffman_tree` (src/cm.py:31-43).  On an empty frequency
table the heap stays empty and the final `heap[0]` raises IndexError,
modelled as `Except.error .indexError`. -/
def build_huffman_tree (frequencies : List (Char × Nat)) : Except PyErr Node :=
  let heap := Heapq.heapify Node.lt (frequencies.map fun cf => Node.leaf cf.1 cf.2)
  let final := mergeLoop heap.length heap
  match final[0]? with
  | some root => Except.ok root
  | none => Except.error PyErr.indexError

/-- Embeds `generate_codes` (src/cm.py:45-55): depth-first walk binding
each leaf's character to the accumulated bit path ('0' left, '1' right)
in the shared codebook dict. -/
def generate_codes (node : Node) (pfx : List Bool) (codebook : List (Char × List Bool)) :
    List (Char × List Bool) :=
  match node with
  | .leaf c _ => dictSet codebook c pfx
  | .internal _ l r =>
    generate_codes r (pfx ++ [true]) (generate_codes l (pfx ++ [false]) codebook)

/-- Embeds `encode_text` (src/cm.py:57-59): concatenate the code of each
character of the text; a character without an entry raises KeyError. -/
def encode_text (text : List Char) (codebook : List (Char × List Bool)) :
    Except PyErr (List Bool) :=
  match text with
  | [] => Except.ok []
  | c :: tl =>
    match dictGet codebook c with
    | none => Except.error PyErr.keyError
    | some code =>
      match encode_text tl codebook with
      | Except.error e => Except.error e
      | Except.ok rest => Except.ok (code ++ rest)

/-- The zero-bit right padding of `write_encoded_text` (src/cm.py:68):
`encoded_text + '0' * ((8 - len(encoded_text) % 8) % 8)`. -/
def pad_bits (bits : List Bool) : List Bool :=
  bits ++ List.replicate ((8 - bits.length % 8) % 8) false

/-- Value of an 8-bit chunk read most-significant-bit first:
`int(padded_encoded_text[i:i+8], 2)` (src/cm.py:69). -/
def byteVal (bits : List Bool) : Nat :=
  bits.foldl (fun acc b => 2 * acc + if b then 1 else 0) 0

/-- Chunking of the padded bit string into bytes (src/cm.py:69).  The
callers only apply it to bit strings of length a multiple of 8. -/
def bitsToBytes : List Bool → List Nat
  | b1 :: b2 :: b3 :: b4 :: b5 :: b6 :: b7 :: b8 :: rest =>
    byteVal [b1, b2, b3, b4, b5, b6, b7, b8] :: bitsToBytes rest
  | [] => []
  | rest => [byteVal rest]

/-- Embeds `write_encoded_text` (src/cm.py:65-72): encode, pad with zero
bits to a byte boundary, group into bytes. -/
def write_encoded_text (text : List Char) (codebook : List (Char × List Bool)) :
    Except PyErr (List Nat) :=
  match encode_text text codebook with
  | Except.error e => Except.error e
  | Except.ok bits => Except.ok (bitsToBytes (pad_bits bits))

/-- Model of the `pickle` library serialization of the codebook dict
(`pickle.dump` / `pickle.dumps`, src/cm.py:63 and src/cm.py:94): a
deterministic, self-delimiting byte encoding — the entry count followed
by, for each entry in dict order, the character's code point, the code
length and the code bits.  The concrete pickle byte format differs, but
it shares the properties the program relies on: equal dicts serialize to
equal byte strings, and the serialization is decodable from a prefix of
the file, leaving the payload bytes untouched. -/
def pickleDumps (d : List (Char × List Bool)) : List Nat :=
  d.length ::
    (d.map fun e => e.1.toNat :: e.2.length :: e.2.map (fun b => if b then 1 else 0)).flatten

/-- One entry of the codebook serialization: code point, code length,
code bits. -/
def parseEntry (bytes : List Nat) : Option ((Char × List Bool) × List Nat) :=
  match bytes with
  | c :: len :: rest =>
    if len ≤ rest.length then
      some ((Char.ofNat c, (rest.take len).map (fun n => n == 1)), rest.drop len)
    else none
  | _ => none

def parseEntries : Nat → List Nat → Option (List (Char × List Bool) × List Nat)
  | 0, bytes => some ([], bytes)
  | k + 1, bytes =>
    match parseEntry bytes with
    | none => none
    | some (e, rest) =>
      match parseEntries k rest with
      | none => none
      | some (es, rest2) => some (e :: es, rest2)

/-- Model of `pickle.load` (src/cm.py:76): parse the codebook back from
the front of the byte string, ignoring whatever follows. -/
def pickleLoads (bytes : List Nat) : Option (List (Char × List Bool)) :=
  match bytes with
  | [] => none
  | n :: rest => (parseEntries n rest).map Prod.fst

/-- Embeds `write_header` (src/cm.py:61-63): the container starts with the
pickled codebook. -/
def write_header (codebook : List (Char × List Bool)) : List Nat :=
  pickleDumps codebook

/-- Embeds `read_header` (src/cm.py:74-77). -/
def read_header (container : List Nat) : Option (List (Char × List Bool)) :=
  pickleLoads container

/-- Expansion of one byte into bits, most significant first:
`f'{byte:08b}'` (src/cm.py:97) for a byte value below 256. -/
def byteToBits (n : Nat) : List Bool :=
  [n.testBit 7, n.testBit 6, n.testBit 5, n.testBit 4,
   n.testBit 3, n.testBit 2, n.testBit 1, n.testBit 0]

/-- Embeds the scanning loop of `decode_text` (src/cm.py:84-89):
accumulate bits into `current`; whenever the accumulated string is a key
of the reverse codebook, emit its character and reset.  Bits left in
`current` when the input ends are silently dropped. -/
def decode_loop (rev : List (List Bool × Char)) : List Bool → List Bool → List Char
  | _, [] => []
  | current, bit :: rest =>
    let cur := current ++ [bit]
    match dictGet rev cur with
    | some ch => ch :: decode_loop rev [] rest
    | none => decode_loop rev cur rest

/-- Embeds `decode_text` (src/cm.py:79-90), including the reverse-codebook
dict comprehension of src/cm.py:80. -/
def decode_text (encoded : List Bool) (codebook : List (Char × List Bool)) : List Char :=
  decode_loop (codebook.foldl (fun d e => dictSet d e.2 e.1) []) [] encoded

/-- Embeds `read_encoded_text` (src/cm.py:92-98): skip
`len(pickle.dumps(codebook))` bytes of header, expand the remaining bytes
into bits and decode. -/
def read_encoded_text (container : List Nat) (codebook : List (Char × List Bool)) : List Char :=
  let byte_data := container.drop (pickleDumps codebook).length
  decode_text ((byte_data.map byteToBits).flatten) codebook

/-- Embeds `compress_file` (src/cm.py:100-107) on an already-read text:
count, build the tree, generate codes, then write header and packed
payload into one byte list. -/
def compress_file (text : List Char) : Except PyErr (List Nat) :=
  match build_huffman_tree (calculate_frequencies text) with
  | Except.error e => Except.error e
  | Except.ok tree =>
    let codebook := generate_codes tree [] []
    match write_encoded_text text codebook with
    | Except.error e => Except.error e
    | Except.ok payload => Except.ok (write_header codebook ++ payload)

/-- Embeds `decompress_file` (src/cm.py:109-116): read the codebook back
from the header, then decode the remaining bytes. -/
def decompress_file (container : List Nat) : Except PyErr (List Char) :=
  match read_header container with
  | none => Except.error PyErr.unpicklingError
  | some codebook => Except.ok (read_encoded_text container codebook)

/-! ### Dictionary lemmas -/

theorem dictGet_dictSet_self {κ β : Type} [DecidableEq κ] (d : List (κ × β)) (k : κ) (v : β) :
    dictGet (dictSet d k v) k = some v := by
  induction d with
  | nil => simp [dictSet, dictGet]
  | cons hd tl ih =>
    obtain ⟨k', w⟩ := hd
    by_cases h : k' = k
    · simp [dictSet, dictGet, h]
    · simp [dictSet, dictGet, h, ih]

theorem dictGet_dictSet_ne {κ β : Type} [DecidableEq κ] (d : List (κ × β)) (k c : κ) (v : β)
    (h : c ≠ k) : dictGet (dictSet d k v) c = dictGet d c := by
  induction d with
  | nil => simp [dictSet, dictGet, Ne.symm h]
  | cons hd tl ih =>
    obtain ⟨k', w⟩ := hd
    by_cases hk : k' = k
    · subst hk
      simp [dictSet, dictGet, Ne.symm h]
    · simp only [dictSet, if_neg hk]
      by_cases hc : k' = c
      · simp [dictGet, hc]
      · simp [dictGet, hc, ih]

theorem dictGet_mem_keys {κ β : Type} [DecidableEq κ] (d : List (κ × β)) (c : κ) (v : β)
    (h : dictGet d c = some v) : c ∈ d.map Prod.fst := by
  induction d with
  | nil => simp [dictGet] at h
  | cons hd tl ih =>
    obtain ⟨k', w⟩ := hd
    by_cases hc : k' = c
    · simp [hc]
    · simp only [dictGet, if_neg hc] at h
      simp [ih h]

/-- Sum of the counts of a frequency dict. -/
def sumVals {κ : Type} (d : List (κ × Nat)) : Nat := (d.map Prod.snd).sum

theorem sumVals_dictSet_none {κ : Type} [DecidableEq κ] (d : List (κ × Nat)) (k : κ) (v : Nat) :
    dictGet d k = none → sumVals (dictSet d k v) = sumVals d + v := by
  induction d with
  | nil => intro h; simp [dictSet, sumVals]
  | cons hd tl ih =>
    intro h
    obtain ⟨k', w⟩ := hd
    by_cases hk : k' = k
    · simp [dictGet, hk] at h
    · simp only [dictGet, if_neg hk] at h
      have hrec := ih h
      simp only [dictSet, if_neg hk, sumVals, List.map_cons, List.sum_cons] at hrec ⊢
      omega

theorem sumVals_dictSet_some {κ : Type} [DecidableEq κ] (d : List (κ × Nat)) (k : κ) (v w : Nat) :
    dictGet d k = some w → sumVals (dictSet d k v) + w = sumVals d + v := by
  induction d with
  | nil => intro h; simp [dictGet] at h
  | cons hd tl ih =>
    intro h
    obtain ⟨k', u⟩ := hd
    by_cases hk : k' = k
    · simp only [dictGet, if_pos hk] at h
      obtain rfl : u = w := by injection h
      simp only [dictSet, if_pos hk, sumVals, List.map_cons, List.sum_cons]
      omega
    · simp only [dictGet, if_neg hk] at h
      have hrec := ih h
      simp only [dictSet, if_neg hk, sumVals, List.map_cons, List.sum_cons] at hrec ⊢
      omega

/-! ### Frequency counting (claim C8) -/

theorem calc_freq_get_aux (text : List Char) :
    ∀ (d : List (Char × Nat)) (c : Char),
      dictGet (text.foldl (fun freqs ch => dictSet freqs ch ((dictGet freqs ch).getD 0 + 1)) d) c =
        match dictGet d c with
        | some m => some (m + text.count c)
        | none => if c ∈ text then some (text.count c) else none := by
  induction text with
  | nil =>
    intro d c
    cases h : dictGet d c <;> simp [h]
  | cons t ts ih =>
    intro d c
    simp only [List.foldl_cons]
    rw [ih]
    by_cases hc : c = t
    · subst hc
      rw [dictGet_dictSet_self]
      cases h : dictGet d c <;>
        simp [h, List.count_cons_self, Nat.add_comm, Nat.add_assoc, Nat.add_left_comm]
    · rw [dictGet_dictSet_ne _ _ _ _ hc]
      have hcount : (t :: ts).count c = ts.count c := by
        simp [List.count_cons, hc]
      cases h : dictGet d c with
      | some m => simp [h, hcount]
      | none =>
        have hmem : c ∈ t :: ts ↔ c ∈ ts := by simp [hc]
        simp [h, hcount, hmem]

theorem calc_freq_sum_aux (text : List Char) :
    ∀ d : List (Char × Nat),
      sumVals (text.foldl (fun freqs ch => dictSet freqs ch ((dictGet freqs ch).getD 0 + 1)) d) =
        sumVals d + text.length := by
  induction text with
  | nil => intro d; simp
  | cons t ts ih =>
    intro d
    simp only [List.foldl_cons]
    rw [ih]
    have hstep : sumVals (dictSet d t ((dictGet d t).getD 0 + 1)) = sumVals d + 1 := by
      cases h : dictGet d t with
      | none =>
        have hn := sumVals_dictSet_none d t 1 h
        simpa using hn
      | some w =>
        have hs := sumVals_dictSet_some d t (w + 1) w h
        simp only [Option.getD_some]
        omega
    rw [hstep]
    simp [List.length_cons]
    omega

/-- Claim C8: `calculate_frequencies` maps exactly the characters occurring
in the text, each to its occurrence count (hence every stored count is at
least 1 and unseen characters have no entry), and the counts sum to the
length of the text. -/
theorem C8_frequency_table (text : List Char) (c : Char) (n : Nat) :
    (dictGet (calculate_frequencies text) c = some n ↔ c ∈ text ∧ n = text.count c) ∧
      sumVals (calculate_frequencies text) = text.length := by
  constructor
  · rw [calculate_frequencies, calc_freq_get_aux text [] c]
    simp only [dictGet]
    by_cases h : c ∈ text
    · simp only [if_pos h]
      constructor
      · intro he
        exact ⟨h, by injection he.symm⟩
      · rintro ⟨-, rfl⟩; rfl
    · simp only [if_neg h]
      constructor
      · intro he; cases he
      · rintro ⟨hc, -⟩; exact absurd hc h
  · rw [calculate_frequencies, calc_freq_sum_aux text []]
    simp [sumVals]

/-! ### List indexing and permutation helpers -/

theorem set_get_id {α : Type} : ∀ (l : List α) (i : Nat) (a : α),
    l[i]? = some a → l.set i a = l := by
  intro l
  induction l with
  | nil => intro i a h; cases h
  | cons x t ih =>
    intro i a h
    cases i with
    | zero =>
      simp only [List.getElem?_cons_zero, Option.some.injEq] at h
      simp [h]
    | succ n =>
      simp only [List.getElem?_cons_succ] at h
      simp [ih n a h]

theorem get_cons_set_perm {α : Type} : ∀ (t : List α) (k : Nat) (a b : α),
    t[k]? = some b → List.Perm (b :: t.set k a) (a :: t) := by
  intro t
  induction t with
  | nil => intro k a b h; cases h
  | cons y s ih =>
    intro k a b h
    cases k with
    | zero =>
      simp only [List.getElem?_cons_zero, Option.some.injEq] at h
      subst h
      simpa using List.Perm.swap a y s
    | succ n =>
      simp only [List.getElem?_cons_succ] at h
      have h1 : List.Perm (b :: y :: s.set n a) (y :: b :: s.set n a) := List.Perm.swap y b _
      have h2 : List.Perm (y :: b :: s.set n a) (y :: a :: s) := (ih n a b h).cons y
      have h3 : List.Perm (y :: a :: s) (a :: y :: s) := List.Perm.swap a y s
      simpa using (h1.trans h2).trans h3

theorem cons_set_swap {α : Type} : ∀ (t : List α) (m : Nat) (a x : α),
    m < t.length → List.Perm (a :: t.set m x) (x :: t.set m a) := by
  intro t
  induction t with
  | nil => intro m a x h; cases h
  | cons y s ih =>
    intro m a x h
    cases m with
    | zero => simpa using List.Perm.swap x a s
    | succ n =>
      have hn : n < s.length := by simpa using h
      have h1 : List.Perm (a :: y :: s.set n x) (y :: a :: s.set n x) := List.Perm.swap y a _
      have h2 : List.Perm (y :: a :: s.set n x) (y :: x :: s.set n a) := (ih n a x hn).cons y
      have h3 : List.Perm (y :: x :: s.set n a) (x :: y :: s.set n a) := List.Perm.swap x y _
      simpa using (h1.trans h2).trans h3

theorem set_set_perm {α : Type} : ∀ (l : List α) (i j : Nat) (b a : α),
    i ≠ j → i < l.length → l[j]? = some b →
    List.Perm ((l.set i b).set j a) (l.set i a) := by
  intro l
  induction l with
  | nil => intro i j b a hij hi hj; cases hj
  | cons x t ih =>
    intro i j b a hij hi hj
    cases i with
    | zero =>
      cases j with
      | zero => exact absurd rfl hij
      | succ k =>
        simp only [List.getElem?_cons_succ] at hj
        simpa using get_cons_set_perm t k a b hj
    | succ m =>
      cases j with
      | zero =>
        simp only [List.getElem?_cons_zero, Option.some.injEq] at hj
        subst hj
        have hm : m < t.length := by simpa using hi
        simpa using cons_set_swap t m a x hm
      | succ k =>
        simp only [List.getElem?_cons_succ] at hj
        have hm : m < t.length := by simpa using hi
        have := ih m k b a (fun he => hij (by rw [he])) hm hj
        simpa using this.cons x

/-! ### Permutation facts for the heapq embedding -/

namespace Heapq

theorem siftdownLoop_perm {α : Type} (lt : α → α → Bool) :
    ∀ (fuel : Nat) (heap : List α) (startpos pos : Nat) (newitem : α),
      pos < heap.length →
      List.Perm (siftdownLoop lt fuel heap startpos pos newitem) (heap.set pos newitem) := by
  intro fuel
  induction fuel with
  | zero => intro heap s p n hp; exact List.Perm.refl _
  | succ f ih =>
    intro heap s p n hp
    unfold siftdownLoop
    split
    · rename_i hsp
      split
      · rename_i hnone
        exfalso
        have hpl : (p - 1) / 2 < heap.length := by omega
        rw [List.getElem?_eq_getElem hpl] at hnone
        cases hnone
      · rename_i parent hsome
        split
        · have hpl : (p - 1) / 2 < heap.length := by omega
          have hrec := ih (heap.set p parent) s ((p - 1) / 2) n (by simpa using hpl)
          refine hrec.trans ?_
          exact set_set_perm heap p ((p - 1) / 2) parent n (by omega) hp hsome
        · exact List.Perm.refl _
    · exact List.Perm.refl _

theorem pickChild_bounds {α : Type} (lt : α → α → Bool) (heap : List α)
    (endpos childpos : Nat) (newitem : α) (h : childpos < endpos) :
    childpos ≤ pickChild lt heap endpos childpos newitem ∧
      pickChild lt heap endpos childpos newitem < endpos := by
  unfold pickChild
  split
  · rename_i hc; exact ⟨Nat.le_succ _, hc.1⟩
  · exact ⟨Nat.le_refl _, h⟩

theorem siftupLoop_perm {α : Type} (lt : α → α → Bool) :
    ∀ (fuel : Nat) (heap : List α) (endpos pos : Nat) (newitem : α),
      pos < endpos → endpos = heap.length →
      List.Perm (siftupLoop lt fuel heap endpos pos newitem).1 (heap.set pos newitem) := by
  intro fuel
  induction fuel with
  | zero => intro heap e p n hp he; exact List.Perm.refl _
  | succ f ih =>
    intro heap e p n hp he
    unfold siftupLoop
    split
    · rename_i hc
      obtain ⟨hcge, hclt⟩ := pickChild_bounds lt heap e (2 * p + 1) n hc
      have hcl : pickChild lt heap e (2 * p + 1) n < heap.length := by omega
      have hgetd : heap.getD (pickChild lt heap e (2 * p + 1) n) n =
          heap[pickChild lt heap e (2 * p + 1) n] := by
        rw [List.getD_eq_getElem?_getD, List.getElem?_eq_getElem hcl, Option.getD_some]
      have hrec := ih (heap.set p (heap.getD (pickChild lt heap e (2 * p + 1) n) n)) e
        (pickChild lt heap e (2 * p + 1) n) n hclt (by simpa using he)
      refine hrec.trans ?_
      rw [hgetd]
      exact set_set_perm heap p (pickChild lt heap e (2 * p + 1) n)
        heap[pickChild lt heap e (2 * p + 1) n] n (by omega) (by omega)
        (List.getElem?_eq_getElem hcl)
    · exact List.Perm.refl _

theorem siftupLoop_final {α : Type} (lt : α → α → Bool) :
    ∀ (fuel : Nat) (heap : List α) (endpos pos : Nat) (newitem : α),
      pos < endpos → endpos = heap.length →
      (siftupLoop lt fuel heap endpos pos newitem).2 < endpos ∧
        (siftupLoop lt fuel heap endpos pos newitem).1[
          (siftupLoop lt fuel heap endpos pos newitem).2]? = some newitem := by
  intro fuel
  induction fuel with
  | zero =>
    intro heap e p n hp he
    exact ⟨hp, List.getElem?_set_self (by omega)⟩
  | succ f ih =>
    intro heap e p n hp he
    unfold siftupLoop
    split
    · rename_i hc
      obtain ⟨hcge, hclt⟩ := pickChild_bounds lt heap e (2 * p + 1) n hc
      exact ih _ e _ n hclt (by simpa using he)
    · exact ⟨hp, List.getElem?_set_self (by omega)⟩

theorem siftupLoop_length {α : Type} (lt : α → α → Bool) :
    ∀ (fuel : Nat) (heap : List α) (endpos pos : Nat) (newitem : α),
      (siftupLoop lt fuel heap endpos pos newitem).1.length = heap.length := by
  intro fuel
  induction fuel with
  | zero => intro heap e p n; simp [siftupLoop]
  | succ f ih =>
    intro heap e p n
    unfold siftupLoop
    split
    · rw [ih]; simp
    · simp

theorem siftup_perm {α : Type} (lt : α → α → Bool) (heap : List α) (pos : Nat) :
    List.Perm (siftup lt heap pos) heap := by
  unfold siftup
  split
  · exact List.Perm.refl _
  · rename_i newitem hsome
    have hpos : pos < heap.length := (List.getElem?_eq_some.mp hsome).1
    have hperm := siftupLoop_perm lt heap.length heap heap.length pos newitem hpos rfl
    have hfin := siftupLoop_final lt heap.length heap heap.length pos newitem hpos rfl
    have hlen := siftupLoop_length lt heap.length heap heap.length pos newitem
    have hdown := siftdownLoop_perm lt
      (siftupLoop lt heap.length heap heap.length pos newitem).2
      (siftupLoop lt heap.length heap heap.length pos newitem).1 pos
      (siftupLoop lt heap.length heap heap.length pos newitem).2 newitem (by omega)
    rw [set_get_id _ _ _ hfin.2] at hdown
    refine (hdown.trans hperm).trans ?_
    rw [set_get_id _ _ _ hsome]

theorem heappush_perm {α : Type} (lt : α → α → Bool) (heap : List α) (item : α) :
    List.Perm (heappush lt heap item) (item :: heap) := by
  unfold heappush
  have hlen : heap.length < (heap ++ [item]).length := by simp
  have h1 := siftdownLoop_perm lt heap.length (heap ++ [item]) 0 heap.length item hlen
  rw [set_get_id _ _ _ (List.getElem?_concat_length heap item)] at h1
  exact h1.trans (List.perm_append_singleton item heap)

theorem getLast?_decomp {α : Type} (l : List α) (a : α) (h : l.getLast? = some a) :
    l = l.dropLast ++ [a] := by
  have hne : l ≠ [] := by rintro rfl; cases h
  rw [List.getLast?_eq_getLast l hne] at h
  have hd := List.dropLast_append_getLast hne
  injection h with h
  rw [h] at hd
  exact hd.symm

theorem heappop_perm {α : Type} (lt : α → α → Bool) (heap : List α) (x : α) (rest : List α)
    (h : heappop lt heap = some (x, rest)) : List.Perm (x :: rest) heap := by
  unfold heappop at h
  split at h
  · cases h
  · rename_i lastelt hlast
    have hdec := getLast?_decomp heap lastelt hlast
    split at h
    · rename_i hdrop
      simp only [Option.some.injEq, Prod.mk.injEq] at h
      obtain ⟨rfl, rfl⟩ := h
      rw [hdec, hdrop]
      exact List.Perm.refl _
    · rename_i r0 rtl hdrop
      simp only [Option.some.injEq, Prod.mk.injEq] at h
      obtain ⟨rfl, rfl⟩ := h
      have h1 : List.Perm (siftup lt (lastelt :: rtl) 0) (lastelt :: rtl) :=
        siftup_perm lt (lastelt :: rtl) 0
      have h2 : List.Perm (lastelt :: rtl) (rtl ++ [lastelt]) :=
        (List.perm_append_singleton lastelt rtl).symm
      rw [hdec, hdrop]
      exact ((h1.trans h2).cons r0)

theorem heappop_some {α : Type} (lt : α → α → Bool) (heap : List α) (h : heap ≠ []) :
    ∃ x rest, heappop lt heap = some (x, rest) := by
  match hl : heap.getLast? with
  | none =>
    exfalso
    exact h (by rwa [List.getLast?_eq_none_iff] at hl)
  | some a =>
    match hd : heap.dropLast with
    | [] => exact ⟨a, [], by unfold heappop; rw [hl, hd]⟩
    | r0 :: rtl => exact ⟨r0, siftup lt (a :: rtl) 0, by unfold heappop; rw [hl, hd]⟩

theorem heapifyAux_perm {α : Type} (lt : α → α → Bool) :
    ∀ (k : Nat) (heap : List α), List.Perm (heapifyAux lt k heap) heap := by
  intro k
  induction k with
  | zero => intro heap; exact List.Perm.refl _
  | succ n ih => intro heap; exact (ih _).trans (siftup_perm lt heap n)

theorem heapify_perm {α : Type} (lt : α → α → Bool) (heap : List α) :
    List.Perm (heapify lt heap) heap :=
  heapifyAux_perm lt _ heap

end Heapq

/-! ### Tree invariants and the merge loop (claims C9, C4, C10) -/

/-- Characters at the leaves of a tree, in depth-first order. -/
def Node.leafChars : Node → List Char
  | .leaf c _ => [c]
  | .internal _ l r => l.leafChars ++ r.leafChars

/-- Well-formedness of a Huffman tree: every internal node's frequency is
the sum of its two children's frequencies. -/
def Node.wf : Node → Prop
  | .leaf _ _ => True
  | .internal f l r => f = l.freq + r.freq ∧ l.wf ∧ r.wf

/-- Multiset of the leaf characters of all trees in a heap. -/
def leafMS (h : List Node) : Multiset Char :=
  (h.map fun t => (t.leafChars : Multiset Char)).sum

/-- Total frequency of all trees in a heap. -/
def sumFreq (h : List Node) : Nat := (h.map Node.freq).sum

theorem leafMS_perm {h1 h2 : List Node} (h : List.Perm h1 h2) : leafMS h1 = leafMS h2 :=
  (h.map _).sum_eq

theorem sumFreq_perm {h1 h2 : List Node} (h : List.Perm h1 h2) : sumFreq h1 = sumFreq h2 :=
  (h.map _).sum_eq

theorem heappop_eq_none (lt : Node → Node → Bool) (heap : List Node)
    (h : Heapq.heappop lt heap = none) : heap = [] := by
  unfold Heapq.heappop at h
  split at h
  · rename_i hl; rwa [List.getLast?_eq_none_iff] at hl
  · split at h <;> cases h

theorem mergeLoop_leafMS : ∀ (fuel : Nat) (heap : List Node),
    leafMS (mergeLoop fuel heap) = leafMS heap := by
  intro fuel
  induction fuel with
  | zero => intro heap; rfl
  | succ f ih =>
    intro heap
    unfold mergeLoop
    split
    · rename_i hlen
      split
      · rfl
      · rename_i left heap1 hpop1
        split
        · exfalso
          rename_i hpop2
          have h1 : heap1 = [] := heappop_eq_none _ _ hpop2
          have hp1 := Heapq.heappop_perm Node.lt heap left heap1 hpop1
          have := hp1.length_eq
          subst h1
          simp at this
          omega
        · rename_i right heap2 hpop2
          rw [ih]
          have p1 := Heapq.heappop_perm Node.lt heap left heap1 hpop1
          have p2 := Heapq.heappop_perm Node.lt heap1 right heap2 hpop2
          have p3 := Heapq.heappush_perm Node.lt heap2
            (Node.internal (left.freq + right.freq) left right)
          rw [leafMS_perm p3]
          have e1 : leafMS heap = (left.leafChars : Multiset Char) + leafMS heap1 := by
            rw [← leafMS_perm p1]; simp [leafMS]
          have e2 : leafMS heap1 = (right.leafChars : Multiset Char) + leafMS heap2 := by
            rw [← leafMS_perm p2]; simp [leafMS]
          rw [e1, e2]
          simp only [leafMS, List.map_cons, List.sum_cons, Node.leafChars]
          rw [← Multiset.coe_add]
          abel_nf
    · rfl

theorem mergeLoop_sumFreq : ∀ (fuel : Nat) (heap : List Node),
    sumFreq (mergeLoop fuel heap) = sumFreq heap := by
  intro fuel
  induction fuel with
  | zero => intro heap; rfl
  | succ f ih =>
    intro heap
    unfold mergeLoop
    split
    · rename_i hlen
      split
      · rfl
      · rename_i left heap1 hpop1
        split
        · exfalso
          rename_i hpop2
          have h1 : heap1 = [] := heappop_eq_none _ _ hpop2
          have hp1 := Heapq.heappop_perm Node.lt heap left heap1 hpop1
          have := hp1.length_eq
          subst h1
          simp at this
          omega
        · rename_i right heap2 hpop2
          rw [ih]
          have p1 := Heapq.heappop_perm Node.lt heap left heap1 hpop1
          have p2 := Heapq.heappop_perm Node.lt heap1 right heap2 hpop2
          have p3 := Heapq.heappush_perm Node.lt heap2
            (Node.internal (left.freq + right.freq) left right)
          rw [sumFreq_perm p3]
          have e1 : sumFreq heap = left.freq + sumFreq heap1 := by
            rw [← sumFreq_perm p1]; simp [sumFreq]
          have e2 : sumFreq heap1 = right.freq + sumFreq heap2 := by
            rw [← sumFreq_perm p2]; simp [sumFreq]
          rw [e1, e2]
          simp only [sumFreq, List.map_cons, List.sum_cons, Node.freq]
          omega
    · rfl

theorem mergeLoop_wf : ∀ (fuel : Nat) (heap : List Node),
    (∀ t ∈ heap, Node.wf t) → ∀ t ∈ mergeLoop fuel heap, Node.wf t := by
  intro fuel
  induction fuel with
  | zero => intro heap hwf; exact hwf
  | succ f ih =>
    intro heap hwf
    unfold mergeLoop
    split
    · rename_i hlen
      split
      · exact hwf
      · rename_i left heap1 hpop1
        have p1 := Heapq.heappop_perm Node.lt heap left heap1 hpop1
        have hmem1 : ∀ t ∈ left :: heap1, Node.wf t := fun t ht => hwf t (p1.subset ht)
        split
        · exact fun t ht => hmem1 t (List.mem_cons_of_mem left ht)
        · rename_i right heap2 hpop2
          have p2 := Heapq.heappop_perm Node.lt heap1 right heap2 hpop2
          have hmem2 : ∀ t ∈ right :: heap2, Node.wf t := fun t ht =>
            hmem1 t (List.mem_cons_of_mem left (p2.subset ht))
          have p3 := Heapq.heappush_perm Node.lt heap2
            (Node.internal (left.freq + right.freq) left right)
          refine ih _ (fun t ht => ?_)
          rcases List.mem_cons.mp (p3.subset ht) with hm | hm
          · subst hm
            exact ⟨rfl, hmem1 left (List.mem_cons_self left heap1),
              hmem2 right (List.mem_cons_self right heap2)⟩
          · exact hmem2 t (List.mem_cons_of_mem right hm)
    · exact hwf

theorem mergeLoop_length_one : ∀ (fuel : Nat) (heap : List Node),
    1 ≤ heap.length → heap.length ≤ fuel → (mergeLoop fuel heap).length = 1 := by
  intro fuel
  induction fuel with
  | zero => intro heap h1 h2; omega
  | succ f ih =>
    intro heap h1 h2
    unfold mergeLoop
    split
    · rename_i hlen
      split
      · rename_i hpop1
        have := heappop_eq_none _ _ hpop1
        subst this
        simp at hlen
      · rename_i left heap1 hpop1
        have p1 := Heapq.heappop_perm Node.lt heap left heap1 hpop1
        have hl1 : heap1.length + 1 = heap.length := by simpa using p1.length_eq
        split
        · rename_i hpop2
          have := heappop_eq_none _ _ hpop2
          subst this
          simp at hl1
          omega
        · rename_i right heap2 hpop2
          have p2 := Heapq.heappop_perm Node.lt heap1 right heap2 hpop2
          have hl2 : heap2.length + 1 = heap1.length := by simpa using p2.length_eq
          have p3 := Heapq.heappush_perm Node.lt heap2
            (Node.internal (left.freq + right.freq) left right)
          have hl3 : (Heapq.heappush Node.lt heap2
              (Node.internal (left.freq + right.freq) left right)).length =
              heap2.length + 1 := by simpa using p3.length_eq
          refine ih _ ?_ ?_ <;> omega
    · omega

theorem leafMS_map_leaf (freqs : List (Char × Nat)) :
    leafMS (freqs.map fun cf => Node.leaf cf.1 cf.2) = (freqs.map Prod.fst : List Char) := by
  induction freqs with
  | nil => rfl
  | cons hd tl ih =>
    simp only [List.map_cons, leafMS, List.sum_cons, Node.leafChars] at ih ⊢
    rw [ih]
    simp [Multiset.cons_coe]

theorem sumFreq_map_leaf (freqs : List (Char × Nat)) :
    sumFreq (freqs.map fun cf => Node.leaf cf.1 cf.2) = sumVals freqs := by
  simp only [sumFreq, sumVals, List.map_map]
  congr 1

/-- Existence and invariants of the tree built by `build_huffman_tree` on a
non-empty frequency table. -/
theorem build_huffman_tree_ok (freqs : List (Char × Nat)) (hne : freqs ≠ []) :
    ∃ root : Node, build_huffman_tree freqs = Except.ok root ∧ Node.wf root ∧
      root.freq = sumVals freqs ∧
      (root.leafChars : Multiset Char) = (freqs.map Prod.fst : List Char) := by
  have hperm : List.Perm (Heapq.heapify Node.lt (freqs.map fun cf => Node.leaf cf.1 cf.2))
      (freqs.map fun cf => Node.leaf cf.1 cf.2) := Heapq.heapify_perm _ _
  have hlen0 : (Heapq.heapify Node.lt (freqs.map fun cf => Node.leaf cf.1 cf.2)).length =
      freqs.length := by rw [hperm.length_eq]; simp
  have hge1 : 1 ≤ (Heapq.heapify Node.lt (freqs.map fun cf => Node.leaf cf.1 cf.2)).length := by
    rw [hlen0]
    cases freqs with
    | nil => exact absurd rfl hne
    | cons hd tl => simp
  have hfinal := mergeLoop_length_one _ _ hge1 (le_refl _)
  obtain ⟨root, hroot⟩ := List.length_eq_one.mp hfinal
  refine ⟨root, ?_, ?_, ?_, ?_⟩
  · simp only [build_huffman_tree]
    rw [hroot]
    simp
  · have hwf0 : ∀ t ∈ Heapq.heapify Node.lt (freqs.map fun cf => Node.leaf cf.1 cf.2),
        Node.wf t := by
      intro t ht
      have : t ∈ freqs.map fun cf => Node.leaf cf.1 cf.2 := hperm.subset ht
      obtain ⟨cf, -, rfl⟩ := List.mem_map.mp this
      trivial
    have := mergeLoop_wf _ _ hwf0 root (by rw [hroot]; exact List.mem_singleton_self root)
    exact this
  · have hsum := mergeLoop_sumFreq
      (Heapq.heapify Node.lt (freqs.map fun cf => Node.leaf cf.1 cf.2)).length
      (Heapq.heapify Node.lt (freqs.map fun cf => Node.leaf cf.1 cf.2))
    rw [hroot] at hsum
    rw [sumFreq_perm hperm, sumFreq_map_leaf] at hsum
    simpa [sumFreq] using hsum
  · have hms := mergeLoop_leafMS
      (Heapq.heapify Node.lt (freqs.map fun cf => Node.leaf cf.1 cf.2)).length
      (Heapq.heapify Node.lt (freqs.map fun cf => Node.leaf cf.1 cf.2))
    rw [hroot] at hms
    rw [leafMS_perm hperm, leafMS_map_leaf] at hms
    simpa [leafMS] using hms

/-- Claim C9: the tree returned by `build_huffman_tree` on a non-empty
frequency table satisfies the structural invariants: every internal node's
frequency is the sum of its children's frequencies (`Node.wf`), the root
frequency equals the sum of all counts, and the leaves carry exactly the
symbols of the frequency table (as a multiset).  Leaves holding exactly
one symbol, internal nodes holding none, and the merged node's children
being (first-extracted, second-extracted) in that order are structural
properties of the embedded `Node` type and `mergeLoop`. -/
theorem C9_tree_invariants (freqs : List (Char × Nat)) (hne : freqs ≠ []) :
    ∃ root : Node, build_huffman_tree freqs = Except.ok root ∧ Node.wf root ∧
      root.freq = sumVals freqs ∧
      (root.leafChars : Multiset Char) = (freqs.map Prod.fst : List Char) :=
  build_huffman_tree_ok freqs hne

/-- Witness for C9 at the concrete frequency table of the text "ab". -/
theorem C9_witness :
    ∃ root : Node, build_huffman_tree [('a', 1), ('b', 1)] = Except.ok root ∧ Node.wf root ∧
      root.freq = sumVals [('a', 1), ('b', 1)] ∧
      (root.leafChars : Multiset Char) = ([('a', 1), ('b', 1)].map Prod.fst : List Char) :=
  C9_tree_invariants [('a', 1), ('b', 1)] (by decide)

/-! ### Code generation: prefix-freeness and totality (claims C4, C10) -/

/-- `LeafPath t p c s`: exploring tree `t` with accumulated prefix `p`,
some leaf labelled `c` is reached with accumulated path `s`. -/
inductive LeafPath : Node → List Bool → Char → List Bool → Prop where
  | leaf (c : Char) (f : Nat) (p : List Bool) : LeafPath (.leaf c f) p c p
  | left {l r : Node} {f : Nat} {p : List Bool} {c : Char} {s : List Bool} :
      LeafPath l (p ++ [false]) c s → LeafPath (.internal f l r) p c s
  | right {l r : Node} {f : Nat} {p : List Bool} {c : Char} {s : List Bool} :
      LeafPath r (p ++ [true]) c s → LeafPath (.internal f l r) p c s

theorem gc_entries : ∀ (t : Node) (p : List Bool) (acc : List (Char × List Bool))
    (c : Char) (s : List Bool),
    dictGet (generate_codes t p acc) c = some s → LeafPath t p c s ∨ dictGet acc c = some s := by
  intro t
  induction t with
  | leaf c' f =>
    intro p acc c s h
    simp only [generate_codes] at h
    by_cases hc : c = c'
    · subst hc
      rw [dictGet_dictSet_self] at h
      injection h with h
      subst h
      exact Or.inl (LeafPath.leaf c f p)
    · rw [dictGet_dictSet_ne _ _ _ _ hc] at h
      exact Or.inr h
  | internal f l r ihl ihr =>
    intro p acc c s h
    simp only [generate_codes] at h
    rcases ihr (p ++ [true]) _ c s h with hr | hacc
    · exact Or.inl (LeafPath.right hr)
    · rcases ihl (p ++ [false]) acc c s hacc with hl | hacc2
      · exact Or.inl (LeafPath.left hl)
      · exact Or.inr hacc2

theorem LeafPath_extends {t : Node} {p : List Bool} {c : Char} {s : List Bool}
    (h : LeafPath t p c s) : ∃ u, s = p ++ u := by
  induction h with
  | leaf c f p => exact ⟨[], by simp⟩
  | left _ ih => obtain ⟨u, hu⟩ := ih; exact ⟨false :: u, by simp [hu]⟩
  | right _ ih => obtain ⟨u, hu⟩ := ih; exact ⟨true :: u, by simp [hu]⟩

theorem LeafPath_no_pre : ∀ (t : Node) (p : List Bool) (c1 c2 : Char) (s1 s2 : List Bool),
    LeafPath t p c1 s1 → LeafPath t p c2 s2 → c1 ≠ c2 → ∀ u : List Bool, s1 ++ u ≠ s2 := by
  intro t
  induction t with
  | leaf c f =>
    intro p c1 c2 s1 s2 h1 h2 hne u
    cases h1; cases h2
    exact absurd rfl hne
  | internal f l r ihl ihr =>
    intro p c1 c2 s1 s2 h1 h2 hne u heq
    cases h1 with
    | left hl1 =>
      cases h2 with
      | left hl2 => exact ihl _ _ _ _ _ hl1 hl2 hne u heq
      | right hr2 =>
        obtain ⟨u1, rfl⟩ := LeafPath_extends hl1
        obtain ⟨u2, rfl⟩ := LeafPath_extends hr2
        simp only [List.append_assoc] at heq
        have := List.append_cancel_left heq
        simp at this
    | right hr1 =>
      cases h2 with
      | left hl2 =>
        obtain ⟨u1, rfl⟩ := LeafPath_extends hr1
        obtain ⟨u2, rfl⟩ := LeafPath_extends hl2
        simp only [List.append_assoc] at heq
        have := List.append_cancel_left heq
        simp at this
      | right hr2 => exact ihr _ _ _ _ _ hr1 hr2 hne u heq

/-- The specification's prefix-freeness property of a code table: for two
distinct symbols, the code of one is never a prefix of (nor equal to) the
code of the other. -/
def PrefFree (cb : List (Char × List Bool)) : Prop :=
  ∀ (c1 c2 : Char) (s1 s2 : List Bool), c1 ≠ c2 →
    dictGet cb c1 = some s1 → dictGet cb c2 = some s2 →
    ∀ u : List Bool, s1 ++ u ≠ s2

theorem generate_codes_pref_free (root : Node) : PrefFree (generate_codes root [] []) := by
  intro c1 c2 s1 s2 hne h1 h2 u heq
  rcases gc_entries root [] [] c1 s1 h1 with hp1 | hacc1
  · rcases gc_entries root [] [] c2 s2 h2 with hp2 | hacc2
    · exact LeafPath_no_pre root [] c1 c2 s1 s2 hp1 hp2 hne u heq
    · cases hacc2
  · cases hacc1

/-- Claim C4: for every non-empty frequency table, the code table produced
by `generate_codes` on the tree built from it is prefix-free — no symbol's
code is a proper prefix of, or equal to, another symbol's code — and the
reverse mapping from bit-string to symbol is injective. -/
theorem C4_codetable_incomparable (freqs : List (Char × Nat)) (hne : freqs ≠ []) :
    ∃ root : Node, build_huffman_tree freqs = Except.ok root ∧
      PrefFree (generate_codes root [] []) ∧
      (∀ (c1 c2 : Char) (s : List Bool), dictGet (generate_codes root [] []) c1 = some s →
        dictGet (generate_codes root [] []) c2 = some s → c1 = c2) := by
  obtain ⟨root, hok, -, -, -⟩ := build_huffman_tree_ok freqs hne
  have hpf := generate_codes_pref_free root
  refine ⟨root, hok, hpf, ?_⟩
  intro c1 c2 s h1 h2
  by_contra hnec
  exact hpf c1 c2 s s hnec h1 h2 [] (by simp)

/-- Witness for C4 at the concrete frequency table of the text "ab". -/
theorem C4_witness :
    ∃ root : Node, build_huffman_tree [('a', 1), ('b', 1)] = Except.ok root ∧
      PrefFree (generate_codes root [] []) ∧
      (∀ (c1 c2 : Char) (s : List Bool), dictGet (generate_codes root [] []) c1 = some s →
        dictGet (generate_codes root [] []) c2 = some s → c1 = c2) :=
  C4_codetable_incomparable [('a', 1), ('b', 1)] (by decide)

theorem gc_preserves : ∀ (t : Node) (p : List Bool) (acc : List (Char × List Bool))
    (c : Char) (s : List Bool),
    dictGet acc c = some s → ∃ s', dictGet (generate_codes t p acc) c = some s' := by
  intro t
  induction t with
  | leaf c' f =>
    intro p acc c s h
    simp only [generate_codes]
    by_cases hc : c = c'
    · subst hc; exact ⟨p, dictGet_dictSet_self acc c p⟩
    · rw [dictGet_dictSet_ne _ _ _ _ hc]; exact ⟨s, h⟩
  | internal f l r ihl ihr =>
    intro p acc c s h
    simp only [generate_codes]
    obtain ⟨s', hs'⟩ := ihl (p ++ [false]) acc c s h
    exact ihr (p ++ [true]) _ c s' hs'

theorem gc_mem : ∀ (t : Node) (p : List Bool) (acc : List (Char × List Bool)) (c : Char),
    c ∈ t.leafChars → ∃ s, dictGet (generate_codes t p acc) c = some s := by
  intro t
  induction t with
  | leaf c' f =>
    intro p acc c hc
    simp only [Node.leafChars, List.mem_singleton] at hc
    subst hc
    exact ⟨p, dictGet_dictSet_self acc c p⟩
  | internal f l r ihl ihr =>
    intro p acc c hc
    simp only [Node.leafChars, List.mem_append] at hc
    simp only [generate_codes]
    rcases hc with hcl | hcr
    · obtain ⟨s, hs⟩ := ihl (p ++ [false]) acc c hcl
      exact gc_preserves r (p ++ [true]) _ c s hs
    · exact ihr (p ++ [true]) _ c hcr

theorem encode_text_ok : ∀ (text : List Char) (cb : List (Char × List Bool)),
    (∀ c ∈ text, ∃ s, dictGet cb c = some s) →
    ∃ bits, encode_text text cb = Except.ok bits := by
  intro text
  induction text with
  | nil => intro cb h; exact ⟨[], rfl⟩
  | cons c tl ih =>
    intro cb h
    obtain ⟨code, hcode⟩ := h c (List.mem_cons_self c tl)
    obtain ⟨rest, hrest⟩ := ih cb (fun c' hc' => h c' (List.mem_cons_of_mem c hc'))
    refine ⟨code ++ rest, ?_⟩
    simp only [encode_text]
    rw [hcode, hrest]

/-- Claim C10: for every non-empty text, every character of the text has
an entry in the code table generated from that text's own frequency
table, so the per-symbol lookup of `encode_text` never raises KeyError. -/
theorem C10_encoding_total (text : List Char) (hne : text ≠ []) :
    ∃ (root : Node) (bits : List Bool),
      build_huffman_tree (calculate_frequencies text) = Except.ok root ∧
      encode_text text (generate_codes root [] []) = Except.ok bits := by
  have hsum := calc_freq_sum_aux text []
  have hfne : calculate_frequencies text ≠ [] := by
    intro h0
    rw [calculate_frequencies] at h0
    rw [h0] at hsum
    simp [sumVals] at hsum
    exact hne (List.length_eq_zero.mp hsum.symm)
  obtain ⟨root, hok, -, -, hleaves⟩ := build_huffman_tree_ok _ hfne
  have hcover : ∀ c ∈ text, ∃ s, dictGet (generate_codes root [] []) c = some s := by
    intro c hc
    have hfreq : dictGet (calculate_frequencies text) c = some (text.count c) := by
      rw [calculate_frequencies, calc_freq_get_aux text [] c]
      simp only [dictGet, if_pos hc]
    have hkey : c ∈ (calculate_frequencies text).map Prod.fst :=
      dictGet_mem_keys _ _ _ hfreq
    have hleaf : c ∈ root.leafChars := by
      have hm : c ∈ (root.leafChars : Multiset Char) := by
        rw [hleaves]
        exact Multiset.mem_coe.mpr hkey
      exact Multiset.mem_coe.mp hm
    exact gc_mem root [] [] c hleaf
  obtain ⟨bits, hbits⟩ := encode_text_ok text _ hcover
  exact ⟨root, bits, hok, hbits⟩

/-- Witness for C10 at the concrete text "ab". -/
theorem C10_witness :
    ∃ (root : Node) (bits : List Bool),
      build_huffman_tree (calculate_frequencies "ab".toList) = Except.ok root ∧
      encode_text "ab".toList (generate_codes root [] []) = Except.ok bits :=
  C10_encoding_total "ab".toList (by decide)

/-! ### Bit packing (claim C7) -/

theorem byteToBits_byteVal : ∀ (b1 b2 b3 b4 b5 b6 b7 b8 : Bool),
    byteToBits (byteVal [b1, b2, b3, b4, b5, b6, b7, b8]) = [b1, b2, b3, b4, b5, b6, b7, b8] := by
  decide

theorem bitsToBytes_flatten : ∀ (n : Nat) (l : List Bool), l.length = 8 * n →
    ((bitsToBytes l).map byteToBits).flatten = l ∧ (bitsToBytes l).length = n := by
  intro n
  induction n with
  | zero =>
    intro l h
    simp only [Nat.mul_zero] at h
    obtain rfl := List.length_eq_zero.mp h
    simp [bitsToBytes]
  | succ m ih =>
    intro l h
    rcases l with _ | ⟨b1, _ | ⟨b2, _ | ⟨b3, _ | ⟨b4, _ | ⟨b5, _ | ⟨b6, _ | ⟨b7, _ | ⟨b8, rest⟩⟩⟩⟩⟩⟩⟩⟩ <;>
      simp only [List.length_cons, List.length_nil] at h
    all_goals try omega
    have hr : rest.length = 8 * m := by omega
    obtain ⟨hflat, hlen⟩ := ih rest hr
    constructor
    · simp only [bitsToBytes, List.map_cons, List.flatten_cons, byteToBits_byteVal, hflat]
      rfl
    · simp only [bitsToBytes, List.length_cons, hlen]

theorem pad_bits_length (bits : List Bool) :
    (pad_bits bits).length = 8 * ((bits.length + 7) / 8) := by
  simp only [pad_bits, List.length_append, List.length_replicate]
  omega

/-- Specification-side lookup of the code of every symbol of the text, in
original order. -/
def lookupCodes (cb : List (Char × List Bool)) : List Char → Option (List (List Bool))
  | [] => some []
  | c :: tl =>
    match dictGet cb c, lookupCodes cb tl with
    | some code, some rest => some (code :: rest)
    | _, _ => none

theorem encode_text_concat : ∀ (text : List Char) (cb : List (Char × List Bool))
    (bits : List Bool), encode_text text cb = Except.ok bits →
    ∃ codes : List (List Bool), lookupCodes cb text = some codes ∧ bits = codes.flatten := by
  intro text
  induction text with
  | nil =>
    intro cb bits h
    simp only [encode_text, Except.ok.injEq] at h
    exact ⟨[], rfl, by simp [h.symm]⟩
  | cons c tl ih =>
    intro cb bits h
    simp only [encode_text] at h
    cases hget : dictGet cb c with
    | none => rw [hget] at h; cases h
    | some code =>
      rw [hget] at h
      cases henc : encode_text tl cb with
      | error e => rw [henc] at h; cases h
      | ok rest =>
        rw [henc] at h
        simp only [Except.ok.injEq] at h
        obtain ⟨codes, hm, hf⟩ := ih cb rest henc
        refine ⟨code :: codes, ?_, ?_⟩
        · simp only [lookupCodes, hget, hm]
        · simp [h.symm, hf]

/-- Claim C7: for every text and code table on which encoding succeeds,
the packed output of `write_encoded_text` is the concatenation of the
per-symbol codes in original order, right-padded with zero bits to the
next multiple of 8, grouped into bytes most-significant-bit first; the
buffer holds exactly `ceil(total bits / 8)` bytes, the pad is at most 7
bits, and re-expanding the bytes bit-by-bit returns exactly the padded
bit string. -/
theorem C7_bit_packing (text : List Char) (codebook : List (Char × List Bool)) (bits : List Bool)
    (h : encode_text text codebook = Except.ok bits) :
    write_encoded_text text codebook = Except.ok (bitsToBytes (pad_bits bits)) ∧
      (∃ codes : List (List Bool),
        lookupCodes codebook text = some codes ∧ bits = codes.flatten) ∧
      pad_bits bits = bits ++ List.replicate ((8 - bits.length % 8) % 8) false ∧
      (8 - bits.length % 8) % 8 < 8 ∧
      (bitsToBytes (pad_bits bits)).length = (bits.length + 7) / 8 ∧
      ((bitsToBytes (pad_bits bits)).map byteToBits).flatten = pad_bits bits := by
  have hlen := pad_bits_length bits
  obtain ⟨hflat, hcount⟩ := bitsToBytes_flatten ((bits.length + 7) / 8) (pad_bits bits) hlen
  refine ⟨?_, encode_text_concat text codebook bits h, rfl, by omega, hcount, hflat⟩
  simp only [write_encoded_text]
  rw [h]

/-- Witness for C7 at the text "ab" and the code table generated for it. -/
theorem C7_witness :
    write_encoded_text "ab".toList [('b', [false]), ('a', [true])] =
        Except.ok (bitsToBytes (pad_bits [true, false])) ∧
      (∃ codes : List (List Bool),
        lookupCodes [('b', [false]), ('a', [true])] "ab".toList = some codes ∧
          [true, false] = codes.flatten) ∧
      pad_bits [true, false] =
        [true, false] ++ List.replicate ((8 - [true, false].length % 8) % 8) false ∧
      (8 - [true, false].length % 8) % 8 < 8 ∧
      (bitsToBytes (pad_bits [true, false])).length = ([true, false].length + 7) / 8 ∧
      ((bitsToBytes (pad_bits [true, false])).map byteToBits).flatten = pad_bits [true, false] :=
  C7_bit_packing "ab".toList [('b', [false]), ('a', [true])] [true, false] (by rfl)

/-! ### Container header recovery (claim C5) -/

theorem bits_encode_decode (bits : List Bool) :
    (bits.map fun b => if b then (1 : Nat) else 0).map (fun n => n == 1) = bits := by
  induction bits with
  | nil => rfl
  | cons b tl ih => cases b <;> simp [ih]

theorem parseEntry_dumps (c : Char) (bits : List Bool) (rest : List Nat) :
    parseEntry (c.toNat :: bits.length ::
        ((bits.map fun b => if b then (1 : Nat) else 0) ++ rest)) = some ((c, bits), rest) := by
  have he : (bits.map fun b => if b then (1 : Nat) else 0).length = bits.length := by simp
  simp only [parseEntry]
  rw [if_pos (by rw [List.length_append, he]; omega)]
  rw [← he, List.take_left, List.drop_left, bits_encode_decode, Char.ofNat_toNat]

theorem parseEntries_dumps : ∀ (d : List (Char × List Bool)) (rest : List Nat),
    parseEntries d.length
        ((d.map fun e =>
          e.1.toNat :: e.2.length :: e.2.map fun b => if b then (1 : Nat) else 0).flatten ++
          rest) = some (d, rest) := by
  intro d
  induction d with
  | nil => intro rest; simp [parseEntries]
  | cons e tl ih =>
    intro rest
    obtain ⟨c, bits⟩ := e
    simp only [List.map_cons, List.flatten_cons, List.length_cons, List.cons_append,
      List.append_assoc]
    simp only [parseEntries]
    rw [parseEntry_dumps c bits _]
    dsimp only
    rw [ih rest]

theorem pickleLoads_dumps (d : List (Char × List Bool)) (rest : List Nat) :
    pickleLoads (pickleDumps d ++ rest) = some d := by
  simp only [pickleDumps, List.cons_append, pickleLoads]
  rw [parseEntries_dumps d rest]
  rfl

/-- Claim C5: for every container written by `compress_file`, the byte
length of the serialized codebook header is exactly recoverable on read —
deserializing the header returns the codebook that was written, whose
re-serialization has the same byte length — so the bytes handed to the
bit unpacker are exactly the payload bytes appended after the header. -/
theorem C5_header_boundary (text : List Char) (container : List Nat)
    (h : compress_file text = Except.ok container) :
    ∃ (codebook : List (Char × List Bool)) (payload : List Nat),
      container = pickleDumps codebook ++ payload ∧
      read_header container = some codebook ∧
      container.drop (pickleDumps codebook).length = payload := by
  simp only [compress_file] at h
  cases hb : build_huffman_tree (calculate_frequencies text) with
  | error e => simp only [hb] at h; exact (Except.noConfusion h)
  | ok tree =>
    simp only [hb] at h
    cases hw : write_encoded_text text (generate_codes tree [] []) with
    | error e => simp only [hw] at h; exact (Except.noConfusion h)
    | ok payload =>
      simp only [hw, Except.ok.injEq, write_header] at h
      refine ⟨generate_codes tree [] [], payload, h.symm, ?_, ?_⟩
      · rw [← h]
        simp only [read_header]
        exact pickleLoads_dumps _ _
      · rw [← h]
        exact List.drop_left _ _

/-- Witness for C5 at the concrete text "ab" and its container. -/
theorem C5_witness :
    ∃ (codebook : List (Char × List Bool)) (payload : List Nat),
      ([2, 98, 1, 0, 97, 1, 1, 128] : List Nat) = pickleDumps codebook ++ payload ∧
      read_header [2, 98, 1, 0, 97, 1, 1, 128] = some codebook ∧
      ([2, 98, 1, 0, 97, 1, 1, 128] : List Nat).drop (pickleDumps codebook).length = payload :=
  C5_header_boundary "ab".toList [2, 98, 1, 0, 97, 1, 1, 128] (by rfl)

/-! ### Concrete end-to-end facts (claims C1, C2, C3, C6)

The container bytes below were computed by the embedded definitions and
can be checked by `rfl`; the comments spell out the code table:
'a' ↦ "0", 'd' ↦ "100", 'c' ↦ "101", 'r' ↦ "110", 'b' ↦ "111", so the
23 data bits are padded with a single zero bit to 24 bits = 3 bytes. -/

/-- The container `compress_file` produces for the text "abracadabra":
the serialized five-entry codebook followed by the three payload bytes
124, 168, 248. -/
def abraContainer : List Nat :=
  [5, 97, 1, 0, 100, 3, 1, 0, 0, 99, 3, 1, 0, 1, 114, 3, 1, 1, 0, 98, 3, 1, 1, 1, 124, 168, 248]

/-- Claim C1 (code bug): compressing the specification's own example
"abracadabra" and decompressing does NOT return the input: the zero pad
bit is itself a valid code (the code of 'a' is "0"), so `decode_text`
decodes it as one extra 'a' and the round trip returns "abracadabraa". -/
theorem C1_roundtrip_failure :
    compress_file "abracadabra".toList = Except.ok abraContainer ∧
      decompress_file abraContainer = Except.ok "abracadabraa".toList ∧
      decompress_file abraContainer ≠ Except.ok "abracadabra".toList := by
  have hok : decompress_file abraContainer = Except.ok "abracadabraa".toList := by rfl
  refine ⟨by rfl, hok, ?_⟩
  rw [hok]
  intro hcontra
  have : "abracadabraa".toList = "abracadabra".toList := by injection hcontra
  exact absurd this (by decide)

/-- Claim C2 (code bug): on the single-distinct-symbol input "aaa" the
Huffman tree is the single leaf ('a', 3) and `generate_codes` binds 'a'
to the EMPTY bit string — the accumulated prefix at the root — not to a
non-empty code such as "0". -/
theorem C2_single_leaf_empty_code :
    build_huffman_tree (calculate_frequencies "aaa".toList) = Except.ok (Node.leaf 'a' 3) ∧
      generate_codes (Node.leaf 'a' 3) [] [] = [('a', [])] ∧
      dictGet (generate_codes (Node.leaf 'a' 3) [] []) 'a' = some [] ∧
      compress_file "aaa".toList = Except.ok [1, 97, 0] ∧
      decompress_file [1, 97, 0] = Except.ok [] :=
  ⟨by rfl, by rfl, by rfl, by rfl, by rfl⟩

/-- Claim C3 counterexample: decompressing the valid "abracadabra"
container truncated by its last byte returns the silently short output
"abracada" as a normal success — not a `CorruptStream` failure — so
truncation produces a wrong-length output with no error. -/
theorem C3_counterexample :
    compress_file "abracadabra".toList = Except.ok abraContainer ∧
      decompress_file abraContainer.dropLast = Except.ok "abracada".toList ∧
      decompress_file abraContainer.dropLast ≠ Except.error PyErr.corruptStream ∧
      "abracada".toList.length ≠ "abracadabra".toList.length := by
  have hok : decompress_file abraContainer.dropLast = Except.ok "abracada".toList := by rfl
  refine ⟨by rfl, hok, ?_, by decide⟩
  rw [hok]
  intro hcontra
  cases hcontra

/-- Claim C3 amended: `decode_text` has no failure branch — when the bits
run out, whatever unmatched residual has accumulated is silently dropped
(`decode_loop rev current [] = []`), so a truncated container decodes to
a silently shorter output instead of a reported `CorruptStream`. -/
theorem C3_silent_truncation :
    (∀ (rev : List (List Bool × Char)) (current : List Bool), decode_loop rev current [] = []) ∧
      decompress_file abraContainer.dropLast = Except.ok "abracada".toList ∧
      "abracada".toList.length < "abracadabra".toList.length :=
  ⟨fun rev current => rfl, by rfl, by decide⟩

/-- Claim C6 counterexample: on an empty frequency table (empty input)
`build_huffman_tree` fails with the uncaught IndexError of `heap[0]` on
an empty heap — an undefined failure — and not with a defined
`EmptyInput` error; `compress_file` of the empty text fails the same
way. -/
theorem C6_counterexample :
    build_huffman_tree [] = Except.error PyErr.indexError ∧
      PyErr.indexError ≠ PyErr.emptyInput ∧
      build_huffman_tree [] ≠ Except.error PyErr.emptyInput ∧
      compress_file [] = Except.error PyErr.indexError := by
  refine ⟨by rfl, by decide, ?_, by rfl⟩
  intro hcontra
  have h1 : build_huffman_tree [] = Except.error PyErr.indexError := by rfl
  rw [h1] at hcontra
  have : PyErr.indexError = PyErr.emptyInput := by injection hcontra
  exact absurd this (by decide)

/-- Claim C6 amended: tree construction on a zero-entry frequency table
does fail, but with the uncaught IndexError raised by `heap[0]` on the
empty heap, not with any defined `EmptyInput` error. -/
theorem C6_empty_input_index_error :
    build_huffman_tree [] = Except.error PyErr.indexError ∧
      compress_file [] = Except.error PyErr.indexError :=
  ⟨by rfl, by rfl⟩

end CM
